import Mathlib

/-!
Shallow embedding of the SEBI Compliance Reference Finder
(`sebi-reference-finder.js`): the metadata extraction rules
(`extractCircularNumber`, `extractSubject`, `extractKeyTerms`), the
response-payload handling of `analyzeWithEnhancedAI`, the resolution step
`enhanceReferencesWithAvailability`, the display defaults of `formatResults`
and the partition/summary logic of `saveResults`.

Modelling conventions: JavaScript strings are Lean `String`/`List Char`;
absent (`undefined`/`null`) object fields are `Option`; the JS `x || d`
default idiom is a function treating `none` and `""` as falsy.  The regular
expressions used by the extractor are hand-compiled into explicit matchers
with JS leftmost scan and greedy/lazy backtracking order for the concrete
pattern shapes that occur (ASCII case folding for the `i` flag).  `JSON.parse`
is modelled by an executable fuel-based JSON reader.
-/

/-- JS whitespace (`\s` and `trim()`), restricted to the characters that can
realistically occur; includes NBSP. -/
def isJsWs (c : Char) : Bool :=
  c = ' ' || c = '\t' || c = '\n' || c = '\r' ||
  c = Char.ofNat 11 || c = Char.ofNat 12 || c = Char.ofNat 160

/-- ASCII lower-casing, the case folding performed by the `i` regex flag and
by `toLowerCase()` on the ASCII range. -/
def lowerA (c : Char) : Char :=
  if 'A' ≤ c ∧ c ≤ 'Z' then Char.ofNat (c.toNat + 32) else c

/-- ASCII upper-casing, as performed by `toUpperCase()` on the ASCII range. -/
def upperA (c : Char) : Char :=
  if 'a' ≤ c ∧ c ≤ 'z' then Char.ofNat (c.toNat - 32) else c

/-- JS `str.toUpperCase()` (ASCII range). -/
def jsToUpper (s : String) : String := String.mk (s.data.map upperA)

/-- JS `str.toLowerCase()` (ASCII range). -/
def jsToLower (s : String) : String := String.mk (s.data.map lowerA)

/-- JS `String.prototype.trim()` on a character list. -/
def jsTrim (cs : List Char) : List Char :=
  ((cs.dropWhile isJsWs).reverse.dropWhile isJsWs).reverse

/-- JS `str.trim()`. -/
def jsTrimStr (s : String) : String :=
  String.mk (jsTrim s.data)

/-- The JS `x || d` idiom on an optional string field: `undefined`, `null`
and `""` are falsy and yield the default. -/
def jsOrString (v : Option String) (dflt : String) : String :=
  match v with
  | some s => if s = "" then dflt else s
  | none => dflt

/-- Metadata record stored in `this.localCirculars` for one local PDF
(`loadLocalCirculars` / `extractMetadata`). -/
structure LocalCircular where
  filename : String
  file_path : String
  circular_number : Option String
  subject : Option String
  date : Option String
  key_terms : List String
deriving Repr, DecidableEq

/-- One candidate reference record produced by the inference step, with the
fields the script reads; absent fields are `none`. -/
structure CandidateRef where
  exact_text : Option String
  reference_type : Option String
  circular_number : Option String
  title : Option String
  page_number : Option Nat
  context : Option String
  confidence : Option String
  reasoning : Option String
  matched_target : Option String
deriving Repr, DecidableEq

/-- The `local_file` snapshot attached to a locally available reference
(`enhanceReferencesWithAvailability`, local branch): five property reads of
the value the lookup found; when that value is inherited from
`Object.prototype` rather than an index entry, every read yields
`undefined`, so all fields are optional. -/
structure LocalFileInfo where
  filename : Option String
  file_path : Option String
  circular_number : Option String
  subject : Option String
  date : Option String
deriving Repr, DecidableEq

/-- A reference after resolution: the original candidate fields (kept by the
`{...ref}` spread) plus the availability fields set by
`enhanceReferencesWithAvailability`. -/
structure ResolvedRef where
  ref : CandidateRef
  availability_status : String
  note : Option String
  local_file : Option LocalFileInfo
deriving Repr, DecidableEq

/-- The Local Index `this.localCirculars`: a plain JS object literal,
modelled as an association list from filename key to metadata.  Own keys are
unique and read via `List.lookup`; the `in` membership test additionally
sees the properties inherited from `Object.prototype` (`jsObjHasKey`). -/
abbrev LocalIndex := List (String × LocalCircular)

/-- The own-property names of `Object.prototype`, visible through the JS
`in` operator on any plain object literal such as `this.localCirculars`. -/
def objectPrototypeKeys : List String :=
  ["constructor", "hasOwnProperty", "isPrototypeOf", "propertyIsEnumerable",
   "toLocaleString", "toString", "valueOf", "__proto__",
   "__defineGetter__", "__defineSetter__", "__lookupGetter__", "__lookupSetter__"]

/-- The JS `in` operator on the index object (`matchedTarget in
this.localCirculars`): true for an own key and also for every property name
inherited from `Object.prototype`. -/
def jsObjHasKey (idx : LocalIndex) (k : String) : Bool :=
  (idx.lookup k).isSome || objectPrototypeKeys.contains k

/-- The `local_file` snapshot built in the `available_locally` branch:
`this.localCirculars[matchedTarget]` followed by five property reads.  For
an own key these read the entry's fields; for a name found only on
`Object.prototype` the accessed value is the inherited function or object
and all five reads yield `undefined`. -/
def jsIndexSnapshot (idx : LocalIndex) (k : String) : LocalFileInfo :=
  match idx.lookup k with
  | some entry => ⟨some entry.filename, some entry.file_path,
                   entry.circular_number, entry.subject, entry.date⟩
  | none => ⟨none, none, none, none, none⟩

/-- The self-reference test of `enhanceReferencesWithAvailability`:
`matchedTarget in this.localCirculars && this.localCirculars[matchedTarget]
.filename === sourceFilename`, with `matchedTarget = ref.matched_target ||
''`.  The `in` test consults the prototype chain; when it succeeds only via
`Object.prototype` the `.filename` read is `undefined`, and the strict
comparison of `undefined` with the string `sourceFilename` is false (the
`none` branch). -/
def isSelfRef (idx : LocalIndex) (sourceFilename : String) (r : CandidateRef) : Bool :=
  jsObjHasKey idx (r.matched_target.getD "") &&
    match idx.lookup (r.matched_target.getD "") with
    | some entry => entry.filename == sourceFilename
    | none => false

/-- Resolution of one candidate in the loop body of
`enhanceReferencesWithAvailability`: the self-reference branch executes
`continue` (the record is not pushed, modelled as `none`); an `in`-test hit
— an own key or an `Object.prototype` property name — yields
`available_locally` with the snapshot of the accessed value; otherwise
`external_reference` with the advisory note. -/
def resolveRef (idx : LocalIndex) (sourceFilename : String) (r : CandidateRef) :
    Option ResolvedRef :=
  if isSelfRef idx sourceFilename r then
    none
  else if jsObjHasKey idx (r.matched_target.getD "") then
    some { ref := r, availability_status := "available_locally", note := none,
           local_file := some (jsIndexSnapshot idx (r.matched_target.getD "")) }
  else
    some { ref := r, availability_status := "external_reference",
           note := some "Referenced document not in local collection",
           local_file := none }

/-- `enhanceReferencesWithAvailability`: the loop pushes each non-dropped
resolved record in order. -/
def enhanceReferencesWithAvailability (idx : LocalIndex) (sourceFilename : String)
    (references : List CandidateRef) : List ResolvedRef :=
  references.filterMap (resolveRef idx sourceFilename)

/-- The `summary` block written by `saveResults`. -/
structure OutputSummary where
  total_references : Nat
  local_references : Nat
  external_references : Nat
deriving Repr, DecidableEq

/-- The reference-carrying part of the JSON artifact written by
`saveResults`. -/
structure OutputData where
  summary : OutputSummary
  local_references : List ResolvedRef
  external_references : List ResolvedRef
  all_references : List ResolvedRef
deriving Repr, DecidableEq

/-- `saveResults`: partitions the enhanced references by
`availability_status` and records the three counts. -/
def saveResults (references : List ResolvedRef) : OutputData :=
  let localRefs := references.filter
    (fun r => r.availability_status == "available_locally")
  let externalRefs := references.filter
    (fun r => r.availability_status == "external_reference")
  { summary := ⟨references.length, localRefs.length, externalRefs.length⟩,
    local_references := localRefs,
    external_references := externalRefs,
    all_references := references }

/-- Confidence string as displayed by `formatResults`:
`(ref.confidence || 'unknown').toUpperCase()`. -/
def displayedConfidence (r : CandidateRef) : String :=
  jsToUpper (jsOrString r.confidence "unknown")

/-- Exact text as displayed by `formatResults`: `ref.exact_text || 'N/A'`. -/
def displayedExactText (r : CandidateRef) : String :=
  jsOrString r.exact_text "N/A"

/-- Example local-index entry (shapes from spec Scenario A). -/
def circAEntry : LocalCircular :=
  { filename := "circA.pdf", file_path := "/circulars/circA.pdf",
    circular_number := some "SEBI/X/1",
    subject := some "Investment Adviser Guidelines",
    date := some "March 15, 2021",
    key_terms := ["investment adviser", "compliance"] }

/-- Example Local Index with the single entry for `circA.pdf`. -/
def idxEx : LocalIndex := [("circA.pdf", circAEntry)]

/-- Example candidate reference with a given `matched_target`. -/
def mkCand (target : Option String) : CandidateRef :=
  { exact_text := some "SEBI/X/1 dated March 15, 2021",
    reference_type := some "sebi_circular",
    circular_number := some "SEBI/X/1",
    title := some "Investment Adviser Guidelines",
    page_number := some 3,
    context := some "As per SEBI/X/1, all advisers must comply.",
    confidence := some "high",
    reasoning := some "Specific SEBI circular number",
    matched_target := target }

/-- JSON values as produced by `JSON.parse`; numeric literals are kept as
their lexeme, which the script never computes with. -/
inductive Json where
  | null
  | jbool (b : Bool)
  | jnum (lexeme : String)
  | jstr (s : String)
  | jarr (elems : List Json)
  | jobj (fields : List (String × Json))

/-- JSON structural whitespace. -/
def isJsonWs (c : Char) : Bool :=
  c = ' ' || c = '\t' || c = '\n' || c = '\r'

/-- Skip JSON structural whitespace. -/
def skipJWs (cs : List Char) : List Char := cs.dropWhile isJsonWs

/-- Value of one hexadecimal digit. -/
def hexDigitVal (c : Char) : Option Nat :=
  if '0' ≤ c ∧ c ≤ '9' then some (c.toNat - 48)
  else if 'a' ≤ c ∧ c ≤ 'f' then some (c.toNat - 87)
  else if 'A' ≤ c ∧ c ≤ 'F' then some (c.toNat - 55)
  else none

/-- JSON escape characters. -/
def escChar (e : Char) : Option Char :=
  if e = '"' ∨ e = '\\' ∨ e = '/' then some e
  else if e = 'n' then some '\n'
  else if e = 't' then some '\t'
  else if e = 'r' then some '\r'
  else if e = 'b' then some (Char.ofNat 8)
  else if e = 'f' then some (Char.ofNat 12)
  else none

/-- Body of a JSON string after the opening quote: returns the decoded
characters and the rest after the closing quote. -/
def parseStringBody : List Char → Option (List Char × List Char)
  | [] => none
  | '\\' :: 'u' :: h1 :: h2 :: h3 :: h4 :: r =>
    match hexDigitVal h1, hexDigitVal h2, hexDigitVal h3, hexDigitVal h4 with
    | some a, some b, some c, some d =>
      (parseStringBody r).map (fun p => (Char.ofNat (((a * 16 + b) * 16 + c) * 16 + d) :: p.1, p.2))
    | _, _, _, _ => none
  | '\\' :: e :: r =>
    match escChar e with
    | some c => (parseStringBody r).map (fun p => (c :: p.1, p.2))
    | none => none
  | '"' :: r => some ([], r)
  | c :: r =>
    if c.toNat < 32 then none
    else (parseStringBody r).map (fun p => (c :: p.1, p.2))

/-- Optional fraction part of a JSON number. -/
def parseFracPart : List Char → Option (List Char × List Char)
  | '.' :: r =>
    let ds := r.takeWhile Char.isDigit
    if ds.isEmpty then none else some ('.' :: ds, r.drop ds.length)
  | cs => some ([], cs)

/-- Optional exponent part of a JSON number. -/
def parseExpPart : List Char → Option (List Char × List Char)
  | e :: r =>
    if e = 'e' ∨ e = 'E' then
      let sr : List Char × List Char :=
        match r with
        | s :: r' => if s = '+' ∨ s = '-' then ([s], r') else ([], s :: r')
        | [] => ([], [])
      let ds := sr.2.takeWhile Char.isDigit
      if ds.isEmpty then none else some (e :: (sr.1 ++ ds), sr.2.drop ds.length)
    else some ([], e :: r)
  | [] => some ([], [])

/-- JSON number lexeme: `-?(0|[1-9][0-9]*)(\.[0-9]+)?([eE][+-]?[0-9]+)?`. -/
def parseNumberLex (cs : List Char) : Option (List Char × List Char) :=
  let nr : List Char × List Char :=
    match cs with
    | '-' :: r => (['-'], r)
    | _ => ([], cs)
  let ip : Option (List Char × List Char) :=
    match nr.2 with
    | '0' :: r => some (['0'], r)
    | c :: _ =>
      if c.isDigit then
        some (nr.2.takeWhile Char.isDigit, nr.2.dropWhile Char.isDigit)
      else none
    | [] => none
  match ip with
  | none => none
  | some (ds, r1) =>
    match parseFracPart r1 with
    | none => none
    | some (fp, r2) =>
      match parseExpPart r2 with
      | none => none
      | some (ep, r3) => some (nr.1 ++ ds ++ fp ++ ep, r3)

mutual

/-- One JSON value (fuel bounds nesting depth). -/
def parseV : Nat → List Char → Option (Json × List Char)
  | 0, _ => none
  | Nat.succ fuel, cs =>
    match skipJWs cs with
    | 'n' :: 'u' :: 'l' :: 'l' :: r => some (Json.null, r)
    | 't' :: 'r' :: 'u' :: 'e' :: r => some (Json.jbool true, r)
    | 'f' :: 'a' :: 'l' :: 's' :: 'e' :: r => some (Json.jbool false, r)
    | '"' :: r => (parseStringBody r).map (fun p => (Json.jstr (String.mk p.1), p.2))
    | '[' :: r =>
      match skipJWs r with
      | ']' :: r2 => some (Json.jarr [], r2)
      | r' => (parseArrTail fuel r').map (fun p => (Json.jarr p.1, p.2))
    | '{' :: r =>
      match skipJWs r with
      | '}' :: r2 => some (Json.jobj [], r2)
      | r' => (parseObjTail fuel r').map (fun p => (Json.jobj p.1, p.2))
    | cs1 => (parseNumberLex cs1).map (fun p => (Json.jnum (String.mk p.1), p.2))

/-- Nonempty comma-separated element list followed by `]`. -/
def parseArrTail : Nat → List Char → Option (List Json × List Char)
  | 0, _ => none
  | Nat.succ fuel, cs =>
    match parseV fuel cs with
    | none => none
    | some (j, r1) =>
      match skipJWs r1 with
      | ',' :: r2 => (parseArrTail fuel r2).map (fun p => (j :: p.1, p.2))
      | ']' :: r2 => some ([j], r2)
      | _ => none

/-- Nonempty comma-separated field list followed by `}`. -/
def parseObjTail : Nat → List Char → Option (List (String × Json) × List Char)
  | 0, _ => none
  | Nat.succ fuel, cs =>
    match skipJWs cs with
    | '"' :: r =>
      match parseStringBody r with
      | none => none
      | some (k, r1) =>
        match skipJWs r1 with
        | ':' :: r2 =>
          match parseV fuel r2 with
          | none => none
          | some (v, r3) =>
            match skipJWs r3 with
            | ',' :: r4 => (parseObjTail fuel r4).map (fun p => ((String.mk k, v) :: p.1, p.2))
            | '}' :: r4 => some ([(String.mk k, v)], r4)
            | _ => none
        | _ => none
    | _ => none

end

/-- Model of `JSON.parse`: one JSON value followed only by whitespace. -/
def parseJson (s : String) : Option Json :=
  match parseV (s.length + 1) s.data with
  | some (j, rest) => if (skipJWs rest).isEmpty then some j else none
  | none => none

/-- The response cleaning of `analyzeWithEnhancedAI` on a character list:
`trim`, strip a leading triple-backtick-json marker (7 code units), then a
leading triple-backtick (3), then a trailing triple-backtick, then `trim`. -/
def cleanResponseL (cs : List Char) : List Char :=
  let t0 := jsTrim cs
  let t1 := if List.isPrefixOf ("```json".data) t0 then t0.drop 7 else t0
  let t2 := if List.isPrefixOf ("```".data) t1 then t1.drop 3 else t1
  let t3 := if List.isSuffixOf ("```".data) t2 then t2.take (t2.length - 3) else t2
  jsTrim t3

/-- The cleaned response text of `analyzeWithEnhancedAI`. -/
def cleanResponse (raw : String) : String :=
  String.mk (cleanResponseL raw.data)

/-- What `analyzeWithEnhancedAI` hands downstream after the inference call:
`candidates` when `JSON.parse` produced an array (its records) or threw (the
catch branch returns the empty list); `nonArray` when it produced any other
JSON value, which the function returns unchanged. -/
inductive AnalysisOutcome where
  | candidates (refs : List Json)
  | nonArray (value : Json)

/-- The reference payload computed by `analyzeWithEnhancedAI` from the raw
response text. -/
def analyzeCandidates (responseText : String) : AnalysisOutcome :=
  match parseJson (cleanResponse responseText) with
  | some (Json.jarr xs) => AnalysisOutcome.candidates xs
  | some j => AnalysisOutcome.nonArray j
  | none => AnalysisOutcome.candidates []

/-- Candidate record with missing optional fields (no confidence, no exact
text). -/
def candMissing : CandidateRef :=
  { exact_text := none, reference_type := some "sebi_circular",
    circular_number := none, title := none, page_number := none,
    context := none, confidence := none, reasoning := none,
    matched_target := some "other.pdf" }

/-- Case-insensitive literal matcher for the `i` regex flag: consume the
(pre-lowercased) literal from the head of the input; returns the consumed
original characters and the rest. -/
def stripCI : List Char → List Char → Option (List Char × List Char)
  | [], cs => some ([], cs)
  | _ :: _, [] => none
  | l :: ls, c :: cs =>
    if lowerA c = l then (stripCI ls cs).map (fun p => (c :: p.1, p.2)) else none

/-- Backtracking of `\s*(.+?)(?:\n|$)` after the label: the greedy `\s*`
tries start offsets `j` from the whitespace-prefix length downwards; the
first offset whose character exists and is not a newline starts the capture,
which (because `.` excludes newlines and the tail is `\n` or end) extends
exactly to the next newline or the end. -/
def subjCapAux (cs : List Char) : Nat → Option (List Char)
  | 0 =>
    if cs.getD 0 '\n' = '\n' then none
    else some (cs.takeWhile (fun c => ! (c = '\n')))
  | Nat.succ j =>
    if cs.getD (Nat.succ j) '\n' = '\n' then subjCapAux cs j
    else some ((cs.drop (Nat.succ j)).takeWhile (fun c => ! (c = '\n')))

/-- Capture group of `\s*(.+?)(?:\n|$)` matched against `rest`, the text
following the label. -/
def subjectCapture (rest : List Char) : Option (List Char) :=
  subjCapAux rest ((rest.takeWhile isJsWs).length)

/-- JS leftmost scan for a labelled-line pattern (the label literal followed
by `\s*(.+?)(?:\n|$)`): positions are tried left to right, and a label hit
whose tail cannot complete resumes one position further, exactly as the
regex engine does. Returns the capture group of the first full match. -/
def findLabeledCapture (label : List Char) : List Char → Option (List Char)
  | [] => none
  | c :: cs =>
    match stripCI label (c :: cs) with
    | some p =>
      match subjectCapture p.2 with
      | some cap => some cap
      | none => findLabeledCapture label cs
    | none => findLabeledCapture label cs

/-- Worker for the `.replace(/\s+/g, ' ')` normalization: the flag records
whether the previous character belonged to a whitespace run already replaced
by one space. -/
def collapseWsAux : Bool → List Char → List Char
  | _, [] => []
  | prevWs, c :: cs =>
    if isJsWs c then
      if prevWs then collapseWsAux true cs
      else ' ' :: collapseWsAux true cs
    else c :: collapseWsAux false cs

/-- The `.replace(/\s+/g, ' ')` normalization: each maximal whitespace run
becomes one space. -/
def collapseWs (cs : List Char) : List Char := collapseWsAux false cs

/-- `match[1].trim().replace(/\s+/g, ' ')` applied to a capture. -/
def normalizeSubject (cap : List Char) : String :=
  String.mk (collapseWs (jsTrim cap))

/-- Lower-cased label of the first subject pattern. -/
def lblSubject : List Char := "subject:".data

/-- Lower-cased label of the second subject pattern. -/
def lblRe : List Char := "re:".data

/-- Normalized capture of one subject pattern on a text, before the length
threshold of `extractSubject` is applied. -/
def trySubjectPattern (label : List Char) (text : String) : Option String :=
  (findLabeledCapture label text.data).map normalizeSubject

/-- `extractSubject`: for each pattern in order, if it matches, accept the
normalized capture only when strictly longer than 10 characters; otherwise
fall through to the next pattern, finally `null`. -/
def extractSubject (text : String) : Option String :=
  match trySubjectPattern lblSubject text with
  | some s =>
    if s.length > 10 then some s
    else
      match trySubjectPattern lblRe text with
      | some s2 => if s2.length > 10 then some s2 else none
      | none => none
  | none =>
    match trySubjectPattern lblRe text with
    | some s2 => if s2.length > 10 then some s2 else none
    | none => none

/-- JS `String.prototype.includes` on character lists: scan every start
position for the needle. -/
def containsSub : List Char → List Char → Bool
  | [], needle => needle.isEmpty
  | c :: t, needle => List.isPrefixOf needle (c :: t) || containsSub t needle

/-- The fixed vocabulary of `extractKeyTerms`, in source order. -/
def keyTermsVocab : List String :=
  ["investment adviser", "registrar", "depository", "mutual fund",
   "portfolio", "compliance", "audit", "charter", "framework",
   "guidelines", "norms", "requirements", "risk management",
   "kyc", "aml", "disclosure", "governance", "intermediary"]

/-- `extractKeyTerms`: lower-case the text, then keep, in vocabulary order,
exactly the terms the lowered text `includes`. -/
def extractKeyTerms (text : String) : List String :=
  keyTermsVocab.filter (fun term => containsSub (jsToLower text).data term.data)

/-- Character class `[A-Z0-9/_-]` under the `i` flag. -/
def isClass1 (c : Char) : Bool :=
  c.isAlpha || c.isDigit || c = '/' || c = '_' || c = '-'

/-- Capture class `[A-Z0-9/._-]` of the generic pattern under the `i`
flag. -/
def isClass2 (c : Char) : Bool :=
  c.isAlpha || c.isDigit || c = '/' || c = '.' || c = '_' || c = '-'

/-- Separator class `[:\s]` of the generic pattern. -/
def isSep (c : Char) : Bool := c = ':' || isJsWs c

/-- Literal `\/`. -/
def expectSlash : List Char → Option (List Char)
  | [] => none
  | c :: r => if c = '/' then some r else none

/-- Tail `\d{4}\/\d+` of the canonical pattern: exactly four digits, a
slash, then the maximal (greedy) nonempty digit run. -/
def p1DatePart (cs : List Char) : Option (List Char) :=
  let d4 := cs.take 4
  if d4.length = 4 ∧ d4.all Char.isDigit then
    match expectSlash (cs.drop 4) with
    | some r =>
      let ds := r.takeWhile Char.isDigit
      if ds.isEmpty then none else some (d4 ++ '/' :: ds)
    | none => none
  else none

/-- Segment `[A-Z0-9/_-]+\/\d{4}\/\d+`: the greedy `+` tries consumption
lengths descending from the maximal class run (the initial argument). -/
def p1Seg2 (cs : List Char) : Nat → Option (List Char)
  | 0 => none
  | Nat.succ k =>
    match expectSlash (cs.drop (Nat.succ k)) with
    | some r =>
      match p1DatePart r with
      | some t => some (cs.take (Nat.succ k) ++ '/' :: t)
      | none => p1Seg2 cs k
    | none => p1Seg2 cs k

/-- Continuation after a matched `(?:CIR|P)` alternative: `\/` then the
second class segment. -/
def p1AfterAlt (tAlt r : List Char) : Option (List Char) :=
  match expectSlash r with
  | some r2 =>
    match p1Seg2 r2 ((r2.takeWhile isClass1).length) with
    | some t => some (tAlt ++ '/' :: t)
    | none => none
  | none => none

/-- Segment `[A-Z0-9/_-]+\/(?:CIR|P)\/[A-Z0-9/_-]+\/\d{4}\/\d+`: greedy `+`
with descending lengths; at each split the alternation tries `CIR` with its
whole continuation before `P`, in regex-engine order. -/
def p1Seg1 (cs : List Char) : Nat → Option (List Char)
  | 0 => none
  | Nat.succ k =>
    match expectSlash (cs.drop (Nat.succ k)) with
    | some r =>
      let viaCir : Option (List Char) :=
        match stripCI ("cir".data) r with
        | some p => p1AfterAlt p.1 p.2
        | none => none
      let res : Option (List Char) :=
        match viaCir with
        | some t => some t
        | none =>
          match stripCI ("p".data) r with
          | some p => p1AfterAlt p.1 p.2
          | none => none
      match res with
      | some t => some (cs.take (Nat.succ k) ++ '/' :: t)
      | none => p1Seg1 cs k
    | none => p1Seg1 cs k

/-- Anchored match of the canonical pattern
`SEBI\/[A-Z0-9\/_-]+\/(?:CIR|P)\/[A-Z0-9\/_-]+\/\d{4}\/\d+` (flag `i`) at
the start of `cs`; returns the whole matched text, `match[0]`. -/
def p1From (cs : List Char) : Option (List Char) :=
  match stripCI ("sebi".data) cs with
  | some p =>
    match expectSlash p.2 with
    | some r1 =>
      match p1Seg1 r1 ((r1.takeWhile isClass1).length) with
      | some t => some (p.1 ++ '/' :: t)
      | none => none
    | none => none
  | none => none

/-- JS leftmost scan for the canonical pattern. -/
def searchP1 : List Char → Option (List Char)
  | [] => none
  | c :: cs =>
    match p1From (c :: cs) with
    | some t => some t
    | none => searchP1 cs

/-- `\s*([A-Z0-9\/._-]+)` after the optional dot: the greedy `\s*` is
deterministic here since no whitespace character belongs to the capture
class. Returns (consumed whitespace, capture). -/
def p2CapTail (r : List Char) : Option (List Char × List Char) :=
  if ((r.drop (r.takeWhile isJsWs).length).takeWhile isClass2).isEmpty then none
  else some (r.takeWhile isJsWs, (r.drop (r.takeWhile isJsWs).length).takeWhile isClass2)

/-- `\.?\s*([A-Z0-9\/._-]+)`: the greedy `\.?` takes a present dot first; if
the rest then fails the engine backtracks to the empty alternative, and the
dot itself (a capture-class character) can start the capture. Returns
(consumed before the capture, capture). -/
def p2AfterNo (r : List Char) : Option (List Char × List Char) :=
  match r with
  | '.' :: r2 =>
    match p2CapTail r2 with
    | some p => some ('.' :: p.1, p.2)
    | none => p2CapTail ('.' :: r2)
  | _ => p2CapTail r

/-- Anchored match of the generic pattern
`Circular[:\s]+No\.?\s*([A-Z0-9\/._-]+)` (flag `i`) at the start of `cs`:
returns (text before the capture, capture); `match[0]` is their
concatenation, `match[1]` the capture. The greedy `[:\s]+` is deterministic
because no separator character can begin `No`. -/
def p2From (cs : List Char) : Option (List Char × List Char) :=
  match stripCI ("circular".data) cs with
  | some p0 =>
    if (p0.2.takeWhile isSep).isEmpty then none
    else
      match stripCI ("no".data) (p0.2.drop (p0.2.takeWhile isSep).length) with
      | some pn =>
        match p2AfterNo pn.2 with
        | some pc => some (p0.1 ++ p0.2.takeWhile isSep ++ pn.1 ++ pc.1, pc.2)
        | none => none
      | none => none
  | none => none

/-- JS leftmost scan for the generic pattern. -/
def searchP2 : List Char → Option (List Char × List Char)
  | [] => none
  | c :: cs =>
    match p2From (c :: cs) with
    | some t => some t
    | none => searchP2 cs

/-- `text.match(pattern1)` projected to `match[0]`. -/
def searchPattern1 (text : String) : Option String :=
  (searchP1 text.data).map String.mk

/-- `text.match(pattern2)` projected to `(match[0], match[1])`. -/
def searchPattern2 (text : String) : Option (String × String) :=
  (searchP2 text.data).map (fun p => (String.mk (p.1 ++ p.2), String.mk p.2))

/-- JS `match[0].includes('/')`. -/
def hasSlash (s : String) : Bool := s.data.any (fun c => c == '/')

/-- `extractCircularNumber`: try the canonical pattern, then the generic
one; on a match return `match[0]` when it contains a slash, else `match[1]`
(for the capture-free canonical pattern `match[1]` is `undefined`, modelled
as `none`). -/
def extractCircularNumber (text : String) : Option String :=
  match searchPattern1 text with
  | some m0 => if hasSlash m0 then some m0 else none
  | none =>
    match searchPattern2 text with
    | some p => if hasSlash p.1 then some p.1 else some p.2
    | none => none

theorem resolveRef_eq_none_iff (idx : LocalIndex) (src : String) (c : CandidateRef) :
    resolveRef idx src c = none ↔ isSelfRef idx src c = true := by
  unfold resolveRef
  by_cases h1 : isSelfRef idx src c = true
  · simp [h1]
  · by_cases h2 : jsObjHasKey idx (c.matched_target.getD "") = true
    · simp [h1, h2]
    · simp [h1, h2]

theorem resolveRef_ref_eq (idx : LocalIndex) (src : String) (c : CandidateRef)
    (r : ResolvedRef) (h : resolveRef idx src c = some r) : r.ref = c := by
  unfold resolveRef at h
  by_cases h1 : isSelfRef idx src c = true
  · rw [if_pos h1] at h
    cases h
  · rw [if_neg h1] at h
    by_cases h2 : jsObjHasKey idx (c.matched_target.getD "") = true
    · rw [if_pos h2] at h
      cases h
      rfl
    · rw [if_neg h2] at h
      cases h
      rfl

theorem resolveRef_status (idx : LocalIndex) (src : String) (c : CandidateRef)
    (r : ResolvedRef) (h : resolveRef idx src c = some r) :
    r.availability_status = "available_locally" ∨
    r.availability_status = "external_reference" := by
  unfold resolveRef at h
  by_cases h1 : isSelfRef idx src c = true
  · rw [if_pos h1] at h
    cases h
  · rw [if_neg h1] at h
    by_cases h2 : jsObjHasKey idx (c.matched_target.getD "") = true
    · rw [if_pos h2] at h
      cases h
      left
      rfl
    · rw [if_neg h2] at h
      cases h
      right
      rfl

theorem saveResults_all (l : List ResolvedRef) :
    (saveResults l).all_references = l := rfl

theorem saveResults_local (l : List ResolvedRef) :
    (saveResults l).local_references
      = l.filter (fun r => r.availability_status == "available_locally") := rfl

theorem saveResults_external (l : List ResolvedRef) :
    (saveResults l).external_references
      = l.filter (fun r => r.availability_status == "external_reference") := rfl

theorem saveResults_total (l : List ResolvedRef) :
    (saveResults l).summary.total_references = l.length := rfl

theorem mem_enhance (idx : LocalIndex) (src : String) (refs : List CandidateRef)
    (r : ResolvedRef) :
    r ∈ enhanceReferencesWithAvailability idx src refs ↔
      ∃ c ∈ refs, resolveRef idx src c = some r := by
  unfold enhanceReferencesWithAvailability
  simp [List.mem_filterMap]

theorem mem_enhance_not_selfRef (idx : LocalIndex) (src : String)
    (refs : List CandidateRef) (r : ResolvedRef)
    (h : r ∈ enhanceReferencesWithAvailability idx src refs) :
    isSelfRef idx src r.ref = false := by
  rcases (mem_enhance idx src refs r).mp h with ⟨c, _, hc⟩
  rw [resolveRef_ref_eq idx src c r hc]
  cases hs : isSelfRef idx src c
  · rfl
  · exact absurd ((resolveRef_eq_none_iff idx src c).mpr hs) (by simp [hc])

theorem mem_enhance_status (idx : LocalIndex) (src : String)
    (refs : List CandidateRef) (r : ResolvedRef)
    (h : r ∈ enhanceReferencesWithAvailability idx src refs) :
    r.availability_status = "available_locally" ∨
    r.availability_status = "external_reference" := by
  rcases (mem_enhance idx src refs r).mp h with ⟨c, _, hc⟩
  exact resolveRef_status idx src c r hc

theorem enhance_length (idx : LocalIndex) (src : String) (refs : List CandidateRef) :
    (enhanceReferencesWithAvailability idx src refs).length
      = (refs.filter (fun c => ! isSelfRef idx src c)).length := by
  induction refs with
  | nil => rfl
  | cons c t ih =>
    unfold enhanceReferencesWithAvailability at ih ⊢
    cases h : resolveRef idx src c with
    | none =>
      have hs : isSelfRef idx src c = true := (resolveRef_eq_none_iff idx src c).mp h
      simp [List.filterMap_cons, h, List.filter_cons, hs, ih]
    | some r =>
      have hs : isSelfRef idx src c = false := by
        cases hss : isSelfRef idx src c
        · rfl
        · exact absurd ((resolveRef_eq_none_iff idx src c).mpr hss) (by simp [h])
      simp [List.filterMap_cons, h, List.filter_cons, hs, ih]

theorem filter_length_partition {α : Type} (p q : α → Bool) :
    ∀ l : List α,
      (∀ r ∈ l, (p r = true ∧ q r = false) ∨ (p r = false ∧ q r = true)) →
      (l.filter p).length + (l.filter q).length = l.length := by
  intro l
  induction l with
  | nil => intro _; rfl
  | cons a t ih =>
    intro h
    have ht := ih (fun r hr => h r (List.mem_cons_of_mem a hr))
    rcases h a (List.mem_cons_self a t) with ⟨hp, hq⟩ | ⟨hp, hq⟩
    · simp [List.filter_cons, hp, hq]
      omega
    · simp [List.filter_cons, hp, hq]
      omega

/-- C1: Self-reference exclusion: a candidate whose `matched_target` hits a
Local Index entry whose filename equals the analyzed document's filename is
dropped by `enhanceReferencesWithAvailability` (the `continue` branch): it is
absent from the all-references list and from both partitions of the saved
output, and the total count equals the number of non-self-reference
candidates only. -/
theorem self_reference_excluded (idx : LocalIndex) (src : String)
    (refs : List CandidateRef) :
    (∀ r ∈ (saveResults (enhanceReferencesWithAvailability idx src refs)).all_references,
        isSelfRef idx src r.ref = false) ∧
    (∀ r ∈ (saveResults (enhanceReferencesWithAvailability idx src refs)).local_references,
        isSelfRef idx src r.ref = false) ∧
    (∀ r ∈ (saveResults (enhanceReferencesWithAvailability idx src refs)).external_references,
        isSelfRef idx src r.ref = false) ∧
    (saveResults (enhanceReferencesWithAvailability idx src refs)).summary.total_references
      = (refs.filter (fun c => ! isSelfRef idx src c)).length := by
  refine ⟨?_, ?_, ?_, ?_⟩
  · intro r hr
    rw [saveResults_all] at hr
    exact mem_enhance_not_selfRef idx src refs r hr
  · intro r hr
    rw [saveResults_local] at hr
    exact mem_enhance_not_selfRef idx src refs r (List.mem_of_mem_filter hr)
  · intro r hr
    rw [saveResults_external] at hr
    exact mem_enhance_not_selfRef idx src refs r (List.mem_of_mem_filter hr)
  · rw [saveResults_total]
    exact enhance_length idx src refs

theorem self_reference_excluded_witness :
    isSelfRef idxEx "circA.pdf" (mkCand (some "circA.pdf")) = true ∧
    (saveResults (enhanceReferencesWithAvailability idxEx "circA.pdf"
        [mkCand (some "circA.pdf"), mkCand (some "other.pdf")])).summary.total_references
      = 1 := by
  refine ⟨by decide, ?_⟩
  exact ((self_reference_excluded idxEx "circA.pdf"
    [mkCand (some "circA.pdf"), mkCand (some "other.pdf")]).2.2.2).trans (by decide)

/-- C2 counterexample: `"toString"` is not a key of the Local Index, yet
the JS `in` test finds it on `Object.prototype`, so resolution classifies
the candidate `available_locally` — with an all-`undefined` local-file
snapshot — instead of `external_reference`, refuting the claim as stated at
this concrete input. -/
theorem proto_member_not_external :
    idxEx.lookup "toString" = none ∧
    resolveRef idxEx "doc.pdf" (mkCand (some "toString"))
      = some { ref := mkCand (some "toString"),
               availability_status := "available_locally", note := none,
               local_file := some ⟨none, none, none, none, none⟩ } := by
  constructor
  · rfl
  · decide

/-- C2 amended: a candidate whose (defaulted) `matched_target` fails the JS
`in` membership test — it is neither a Local Index key nor a property name
inherited from `Object.prototype`; missing and empty values are such cases —
is never dropped and never classified `available_locally`: resolution yields
exactly the `external_reference` record with the advisory note. -/
theorem unmatched_target_external (idx : LocalIndex) (src : String)
    (r : CandidateRef)
    (h : jsObjHasKey idx (r.matched_target.getD "") = false) :
    resolveRef idx src r
      = some { ref := r, availability_status := "external_reference",
               note := some "Referenced document not in local collection",
               local_file := none } := by
  have hself : isSelfRef idx src r = false := by
    unfold isSelfRef
    rw [h]
    rfl
  unfold resolveRef
  rw [if_neg (by rw [hself]; exact Bool.false_ne_true),
      if_neg (by rw [h]; exact Bool.false_ne_true)]

theorem unmatched_target_external_witness :
    resolveRef idxEx "doc.pdf" (mkCand none)
      = some { ref := mkCand none, availability_status := "external_reference",
               note := some "Referenced document not in local collection",
               local_file := none } :=
  unmatched_target_external idxEx "doc.pdf" (mkCand none) (by decide)

/-- C5: Partition completeness for the materialized output: every resolved
reference lies in exactly one of the two partitions of `saveResults`, each
partition is an order-preserving sublist of the all-references list, and the
two partition sizes sum to the reported total count. -/
theorem partition_completeness (idx : LocalIndex) (src : String)
    (cands : List CandidateRef) :
    (∀ r ∈ enhanceReferencesWithAvailability idx src cands,
        (r ∈ (saveResults (enhanceReferencesWithAvailability idx src cands)).local_references ∧
         r ∉ (saveResults (enhanceReferencesWithAvailability idx src cands)).external_references) ∨
        (r ∈ (saveResults (enhanceReferencesWithAvailability idx src cands)).external_references ∧
         r ∉ (saveResults (enhanceReferencesWithAvailability idx src cands)).local_references)) ∧
    List.Sublist (saveResults (enhanceReferencesWithAvailability idx src cands)).local_references
      (enhanceReferencesWithAvailability idx src cands) ∧
    List.Sublist (saveResults (enhanceReferencesWithAvailability idx src cands)).external_references
      (enhanceReferencesWithAvailability idx src cands) ∧
    (saveResults (enhanceReferencesWithAvailability idx src cands)).local_references.length
      + (saveResults (enhanceReferencesWithAvailability idx src cands)).external_references.length
      = (saveResults (enhanceReferencesWithAvailability idx src cands)).summary.total_references := by
  refine ⟨?_, ?_, ?_, ?_⟩
  · intro r hr
    rcases mem_enhance_status idx src cands r hr with hs | hs
    · left
      constructor
      · rw [saveResults_local]
        exact List.mem_filter.mpr ⟨hr, by simp [hs]⟩
      · rw [saveResults_external]
        intro hmem
        have := (List.mem_filter.mp hmem).2
        rw [hs] at this
        simp at this
    · right
      constructor
      · rw [saveResults_external]
        exact List.mem_filter.mpr ⟨hr, by simp [hs]⟩
      · rw [saveResults_local]
        intro hmem
        have := (List.mem_filter.mp hmem).2
        rw [hs] at this
        simp at this
  · rw [saveResults_local]
    exact List.filter_sublist _
  · rw [saveResults_external]
    exact List.filter_sublist _
  · rw [saveResults_local, saveResults_external, saveResults_total]
    apply filter_length_partition
    intro r hr
    rcases mem_enhance_status idx src cands r hr with hs | hs
    · left; constructor <;> simp [hs]
    · right; constructor <;> simp [hs]

theorem partition_completeness_witness :
    ((saveResults (enhanceReferencesWithAvailability idxEx "doc.pdf"
        [mkCand (some "circA.pdf"), mkCand none])).local_references.length
      + (saveResults (enhanceReferencesWithAvailability idxEx "doc.pdf"
        [mkCand (some "circA.pdf"), mkCand none])).external_references.length
      = (saveResults (enhanceReferencesWithAvailability idxEx "doc.pdf"
        [mkCand (some "circA.pdf"), mkCand none])).summary.total_references) ∧
    (saveResults (enhanceReferencesWithAvailability idxEx "doc.pdf"
        [mkCand (some "circA.pdf"), mkCand none])).summary.total_references = 2 :=
  ⟨(partition_completeness idxEx "doc.pdf"
      [mkCand (some "circA.pdf"), mkCand none]).2.2.2, by decide⟩

/-- C4: any failure to decode the inference payload after wrapper stripping
is caught by the try/catch of `analyzeWithEnhancedAI` and yields exactly zero
candidate references: the analysis proceeds with the empty candidate
sequence instead of aborting. -/
theorem decode_failure_yields_zero (responseText : String)
    (h : parseJson (cleanResponse responseText) = none) :
    analyzeCandidates responseText = AnalysisOutcome.candidates [] := by
  unfold analyzeCandidates
  rw [h]

theorem decode_failure_yields_zero_witness :
    parseJson (cleanResponse "```json\nthe model returned prose, not JSON\n```") = none ∧
    analyzeCandidates "```json\nthe model returned prose, not JSON\n```"
      = AnalysisOutcome.candidates [] :=
  ⟨rfl, decode_failure_yields_zero "```json\nthe model returned prose, not JSON\n```" rfl⟩

/-- C3 counterexample: at a concrete payload that cannot be parsed at all,
the call does not fail hard: the thrown parse error is caught and an
ordinary (empty) candidate list is returned, contradicting the claimed hard
NormalizationError with no result for that run. -/
theorem unparseable_payload_not_hard_failure :
    parseJson (cleanResponse "I could not find any JSON references.") = none ∧
    analyzeCandidates "I could not find any JSON references."
      = AnalysisOutcome.candidates [] :=
  ⟨rfl, rfl⟩

/-- C3 amended: a payload that cannot be parsed into a sequence of records
is a soft failure: the call returns the empty candidate sequence (no error
escapes the catch), and the downstream saved summary over the resulting
empty batch reports a total count of zero. -/
theorem unparseable_payload_soft (responseText : String) (idx : LocalIndex)
    (src : String) (h : parseJson (cleanResponse responseText) = none) :
    analyzeCandidates responseText = AnalysisOutcome.candidates [] ∧
    (saveResults (enhanceReferencesWithAvailability idx src [])).summary.total_references
      = 0 := by
  constructor
  · unfold analyzeCandidates
    rw [h]
  · rfl

theorem unparseable_payload_soft_witness :
    analyzeCandidates "NO REFERENCES FOUND" = AnalysisOutcome.candidates [] ∧
    (saveResults (enhanceReferencesWithAvailability idxEx "doc.pdf" [])).summary.total_references
      = 0 :=
  unparseable_payload_soft "NO REFERENCES FOUND" idxEx "doc.pdf" rfl

/-- C6 counterexample: a parsed candidate with missing confidence and
missing exact text is materialized by resolution with both fields still
absent — the materialized record does not carry defaulted values. -/
theorem materialized_fields_not_defaulted :
    (enhanceReferencesWithAvailability idxEx "doc.pdf" [candMissing]).map
        (fun r => (r.ref.confidence, r.ref.exact_text)) = [(none, none)] := by
  decide

/-- C6 amended: missing optional fields stay absent on normalized and
materialized records — resolution copies the candidate's fields unchanged —
and the defaults are substituted only when `formatResults` renders a record:
a missing confidence is displayed as the upper-cased "unknown" and a missing
exact text as the placeholder "N/A". -/
theorem defaults_applied_at_display (idx : LocalIndex) (src : String)
    (c : CandidateRef) (r : ResolvedRef) (h : resolveRef idx src c = some r) :
    r.ref = c ∧
    (c.confidence = none → displayedConfidence r.ref = "UNKNOWN") ∧
    (c.exact_text = none → displayedExactText r.ref = "N/A") := by
  have hrc := resolveRef_ref_eq idx src c r h
  refine ⟨hrc, ?_, ?_⟩
  · intro hc
    rw [hrc]
    unfold displayedConfidence jsOrString
    rw [hc]
    decide
  · intro hc
    rw [hrc]
    unfold displayedExactText jsOrString
    rw [hc]

theorem defaults_applied_at_display_witness :
    displayedConfidence candMissing = "UNKNOWN" ∧
    displayedExactText candMissing = "N/A" := by
  have h := defaults_applied_at_display idxEx "doc.pdf" candMissing
    { ref := candMissing, availability_status := "external_reference",
      note := some "Referenced document not in local collection",
      local_file := none }
    (by decide)
  exact ⟨h.2.1 rfl, h.2.2 rfl⟩

/-- C7: Subject boundary: when every labelled capture of the text normalizes
to length exactly 10, extraction yields absent; a capture of normalized
length 11 from the Subject pattern — or from the Re pattern when the
Subject pattern yields no match — is returned as the subject. -/
theorem subject_boundary (text : String) :
    ((∀ s, trySubjectPattern lblSubject text = some s → s.length = 10) →
     (∀ s, trySubjectPattern lblRe text = some s → s.length = 10) →
     extractSubject text = none) ∧
    (∀ s, trySubjectPattern lblSubject text = some s → s.length = 11 →
       extractSubject text = some s) ∧
    (∀ s, trySubjectPattern lblSubject text = none →
       trySubjectPattern lblRe text = some s → s.length = 11 →
       extractSubject text = some s) := by
  refine ⟨?_, ?_, ?_⟩
  · intro h1 h2
    unfold extractSubject
    cases hs : trySubjectPattern lblSubject text with
    | none =>
      cases hr : trySubjectPattern lblRe text with
      | none => rfl
      | some s2 =>
        have h10 := h2 s2 hr
        simp [h10]
    | some s =>
      have h10 := h1 s hs
      simp [h10]
      cases hr : trySubjectPattern lblRe text with
      | none => rfl
      | some s2 =>
        have h10b := h2 s2 hr
        simp [h10b]
  · intro s hs h11
    unfold extractSubject
    rw [hs]
    simp [h11]
  · intro s hn hr h11
    unfold extractSubject
    rw [hn, hr]
    simp [h11]

theorem subject_boundary_witness :
    extractSubject "Subject: abcdefghij" = none ∧
    extractSubject "Subject: abcdefghijk" = some "abcdefghijk" := by
  constructor
  · apply (subject_boundary "Subject: abcdefghij").1
    · intro s hs
      rw [show trySubjectPattern lblSubject "Subject: abcdefghij" = some "abcdefghij"
            from rfl] at hs
      cases hs
      rfl
    · intro s hs
      rw [show trySubjectPattern lblRe "Subject: abcdefghij" = none from rfl] at hs
      cases hs
  · exact (subject_boundary "Subject: abcdefghijk").2.1 "abcdefghijk" rfl rfl

theorem isPrefixOf_eq_true_iff (n h : List Char) :
    List.isPrefixOf n h = true ↔ ∃ q, h = n ++ q := by
  induction n generalizing h with
  | nil => simp [List.isPrefixOf]
  | cons a t ih =>
    cases h with
    | nil => simp [List.isPrefixOf]
    | cons b u =>
      simp only [List.isPrefixOf, Bool.and_eq_true, beq_iff_eq, ih, List.cons_append,
        List.cons.injEq]
      constructor
      · rintro ⟨hab, q, hq⟩
        exact ⟨q, hab.symm, hq⟩
      · rintro ⟨q, hab, hq⟩
        exact ⟨hab.symm, q, hq⟩

theorem containsSub_eq_true_iff (h n : List Char) :
    containsSub h n = true ↔ ∃ p q, h = p ++ n ++ q := by
  induction h with
  | nil =>
    simp only [containsSub, List.isEmpty_iff]
    constructor
    · intro hn
      exact ⟨[], [], by simp [hn]⟩
    · rintro ⟨p, q, hpq⟩
      rcases List.append_eq_nil.mp (List.append_eq_nil.mp hpq.symm).1 with ⟨_, h2⟩
      exact h2
  | cons c t ih =>
    simp only [containsSub, Bool.or_eq_true, isPrefixOf_eq_true_iff, ih]
    constructor
    · rintro (⟨q, hq⟩ | ⟨p, q, hpq⟩)
      · exact ⟨[], q, by simp [hq]⟩
      · exact ⟨c :: p, q, by simp [hpq]⟩
    · rintro ⟨p, q, hpq⟩
      cases p with
      | nil => exact Or.inl ⟨q, by simpa using hpq⟩
      | cons c' p' =>
        right
        refine ⟨p', q, ?_⟩
        have := hpq
        simp only [List.cons_append, List.cons.injEq] at this
        exact this.2

/-- C9: key-term extraction returns, in vocabulary order, exactly the subset
of the fixed 18-entry vocabulary whose entries occur as substrings of the
lower-cased text: the result is a sublist of the vocabulary (hence ordered
by it, not by document position), membership is equivalent to
case-insensitive occurrence, and the function is deterministic. -/
theorem key_terms_vocabulary_order (text : String) :
    keyTermsVocab.length = 18 ∧
    List.Sublist (extractKeyTerms text) keyTermsVocab ∧
    (∀ t, t ∈ extractKeyTerms text ↔
       t ∈ keyTermsVocab ∧ ∃ p q, (jsToLower text).data = p ++ t.data ++ q) := by
  refine ⟨rfl, List.filter_sublist _, ?_⟩
  intro t
  unfold extractKeyTerms
  rw [List.mem_filter]
  constructor
  · rintro ⟨hm, hc⟩
    exact ⟨hm, (containsSub_eq_true_iff _ _).mp hc⟩
  · rintro ⟨hm, hocc⟩
    exact ⟨hm, (containsSub_eq_true_iff _ _).mpr hocc⟩

theorem key_terms_vocabulary_order_witness :
    extractKeyTerms "Mutual Fund compliance and KYC norms"
      = ["mutual fund", "compliance", "norms", "kyc"] ∧
    List.Sublist (extractKeyTerms "Mutual Fund compliance and KYC norms") keyTermsVocab :=
  ⟨by decide, (key_terms_vocabulary_order "Mutual Fund compliance and KYC norms").2.1⟩

theorem expectSlash_eq (cs r : List Char) (h : expectSlash cs = some r) :
    cs = '/' :: r := by
  cases cs with
  | nil => cases h
  | cons c t =>
    simp only [expectSlash] at h
    by_cases hc : c = '/'
    · rw [if_pos hc] at h
      cases h
      rw [hc]
    · rw [if_neg hc] at h
      cases h

theorem p1From_has_slash (cs t : List Char) (h : p1From cs = some t) : '/' ∈ t := by
  unfold p1From at h
  cases h0 : stripCI ("sebi".data) cs with
  | none => simp only [h0] at h; cases h
  | some p =>
    simp only [h0] at h
    cases h1 : expectSlash p.2 with
    | none => simp only [h1] at h; cases h
    | some r1 =>
      simp only [h1] at h
      cases h2 : p1Seg1 r1 ((r1.takeWhile isClass1).length) with
      | none => simp only [h2] at h; cases h
      | some t0 =>
        simp only [h2] at h
        cases h
        simp

theorem searchP1_has_slash (cs t : List Char) (h : searchP1 cs = some t) : '/' ∈ t := by
  induction cs with
  | nil => cases h
  | cons c cs ih =>
    unfold searchP1 at h
    cases hp : p1From (c :: cs) with
    | some t0 =>
      simp only [hp] at h
      cases h
      exact p1From_has_slash _ _ hp
    | none =>
      simp only [hp] at h
      exact ih h

theorem stripCI_mem_lower (ls : List Char) :
    ∀ cs t r, stripCI ls cs = some (t, r) → ∀ c ∈ t, lowerA c ∈ ls := by
  induction ls with
  | nil =>
    intro cs t r h c hc
    simp only [stripCI] at h
    cases h
    cases hc
  | cons l ls ih =>
    intro cs t r h c hc
    cases cs with
    | nil => cases h
    | cons c0 cs0 =>
      simp only [stripCI] at h
      by_cases he : lowerA c0 = l
      · rw [if_pos he] at h
        cases h2 : stripCI ls cs0 with
        | none => simp only [h2] at h; cases h
        | some p =>
          simp only [h2, Option.map_some'] at h
          cases h
          rcases List.mem_cons.mp hc with hc0 | hcp
          · rw [hc0, he]
            exact List.mem_cons_self _ _
          · exact List.mem_cons_of_mem _ (ih cs0 p.1 p.2 (by rw [h2]) c hcp)
      · rw [if_neg he] at h
        cases h

theorem lowerA_slash : lowerA '/' = '/' := by decide

theorem p2CapTail_ws (r ws cap : List Char) (h : p2CapTail r = some (ws, cap)) :
    ∀ c ∈ ws, isJsWs c = true := by
  unfold p2CapTail at h
  split at h
  · cases h
  · cases h
    intro c hc
    exact List.mem_takeWhile_imp hc

theorem p2AfterNo_pre (r pre cap : List Char) (h : p2AfterNo r = some (pre, cap)) :
    ∀ c ∈ pre, c = '.' ∨ isJsWs c = true := by
  unfold p2AfterNo at h
  split at h
  · rename_i r2
    cases h2 : p2CapTail r2 with
    | some p =>
      simp only [h2] at h
      cases h
      intro c hc
      rcases List.mem_cons.mp hc with hc0 | hcw
      · exact Or.inl hc0
      · exact Or.inr (p2CapTail_ws r2 p.1 p.2 (by rw [h2]) c hcw)
    | none =>
      simp only [h2] at h
      intro c hc
      exact Or.inr (p2CapTail_ws _ pre cap h c hc)
  · intro c hc
    exact Or.inr (p2CapTail_ws _ pre cap h c hc)

theorem isSep_no_slash (c : Char) (h : isSep c = true) : c ≠ '/' := by
  intro hc
  rw [hc] at h
  revert h
  decide

theorem p2From_pre_no_slash (cs pre cap : List Char)
    (h : p2From cs = some (pre, cap)) : '/' ∉ pre := by
  unfold p2From at h
  cases h0 : stripCI ("circular".data) cs with
  | none => simp only [h0] at h; cases h
  | some p0 =>
    simp only [h0] at h
    split at h
    · cases h
    · cases h1 : stripCI ("no".data) (p0.2.drop (p0.2.takeWhile isSep).length) with
      | none => simp only [h1] at h; cases h
      | some pn =>
        simp only [h1] at h
        cases h2 : p2AfterNo pn.2 with
        | none => simp only [h2] at h; cases h
        | some pc =>
          simp only [h2] at h
          cases h
          intro hmem
          rcases List.mem_append.mp hmem with hmem3 | hc4
          · rcases List.mem_append.mp hmem3 with hmem2 | hc3
            · rcases List.mem_append.mp hmem2 with hc1 | hc2
              · have hm := stripCI_mem_lower _ _ _ _
                  (show stripCI ("circular".data) cs = some (p0.1, p0.2) by rw [h0]) '/' hc1
                rw [lowerA_slash] at hm
                revert hm
                decide
              · exact isSep_no_slash '/' (List.mem_takeWhile_imp hc2) rfl
            · have hm := stripCI_mem_lower _ _ _ _
                (show stripCI ("no".data) (p0.2.drop (p0.2.takeWhile isSep).length)
                    = some (pn.1, pn.2) by rw [h1]) '/' hc3
              rw [lowerA_slash] at hm
              revert hm
              decide
          · rcases p2AfterNo_pre pn.2 pc.1 pc.2 (by rw [h2]) '/' hc4 with hdot | hws
            · cases hdot
            · revert hws
              decide

theorem searchP2_pre_no_slash (cs : List Char) :
    ∀ pre cap, searchP2 cs = some (pre, cap) → '/' ∉ pre := by
  induction cs with
  | nil =>
    intro pre cap h
    cases h
  | cons c cs ih =>
    intro pre cap h
    unfold searchP2 at h
    cases hp : p2From (c :: cs) with
    | some t0 =>
      simp only [hp] at h
      cases h
      exact p2From_pre_no_slash (c :: cs) pre cap hp
    | none =>
      simp only [hp] at h
      exact ih pre cap h

/-- C8: canonical-pattern precedence: whenever the canonical slash-delimited
SEBI pattern matches the text at all, `extractCircularNumber` returns that
match (its `match[0]`, which provably contains a slash), even if the generic
pattern also matches — at any position, including earlier in the text; the
patterns are tried in a fixed order, not by position. -/
theorem canonical_pattern_precedence (text m0 : String) (p : String × String)
    (h1 : searchPattern1 text = some m0) (h2 : searchPattern2 text = some p) :
    extractCircularNumber text = some m0 := by
  have hs : hasSlash m0 = true := by
    unfold searchPattern1 at h1
    cases ht : searchP1 text.data with
    | none => rw [ht] at h1; cases h1
    | some t =>
      rw [ht] at h1
      simp only [Option.map_some'] at h1
      cases h1
      have hmem := searchP1_has_slash text.data t ht
      unfold hasSlash
      simp only [List.any_eq_true]
      exact ⟨'/', hmem, rfl⟩
  simp [extractCircularNumber, h1, hs]

theorem canonical_pattern_precedence_witness :
    extractCircularNumber "Circular No. ABC refers to SEBI/HO/CIR/P/2021/670 ok"
      = some "SEBI/HO/CIR/P/2021/670" :=
  canonical_pattern_precedence "Circular No. ABC refers to SEBI/HO/CIR/P/2021/670 ok"
    "SEBI/HO/CIR/P/2021/670" ("Circular No. ABC", "ABC") rfl rfl

/-- C10: when only the generic pattern matches, the result depends on
whether the captured value contains a slash: with a slash the entire matched
text including the label prefix (`match[0]`) is returned, without one just
the captured value (`match[1]`); the label prefix itself can never contain a
slash, so the test on `match[0]` is equivalent to a test on the capture. -/
theorem generic_pattern_slash (text : String) (m : String × String)
    (h1 : searchPattern1 text = none) (h2 : searchPattern2 text = some m) :
    extractCircularNumber text = some (if hasSlash m.2 then m.1 else m.2) := by
  have heq : hasSlash m.1 = hasSlash m.2 := by
    unfold searchPattern2 at h2
    cases ht : searchP2 text.data with
    | none => rw [ht] at h2; cases h2
    | some q =>
      rw [ht] at h2
      simp only [Option.map_some'] at h2
      cases h2
      have hq := searchP2_pre_no_slash text.data q.1 q.2 (by rw [ht])
      unfold hasSlash
      simp only [List.any_append]
      have hfalse : q.1.any (fun c => c == '/') = false := by
        rw [List.any_eq_false]
        intro c hc
        by_cases hcc : c = '/'
        · rw [hcc] at hc
          exact absurd hc hq
        · simp [hcc]
      rw [hfalse]
      simp
  simp only [extractCircularNumber, h1, h2]
  rw [heq]
  cases hv : hasSlash m.2 <;> simp

theorem generic_pattern_slash_witness :
    extractCircularNumber "See Circular No. AB/12 now" = some "Circular No. AB/12" := by
  have h := generic_pattern_slash "See Circular No. AB/12 now"
    ("Circular No. AB/12", "AB/12") rfl rfl
  rw [h]
  rfl
